import Mathlib

/-!
Shallow embedding of the Tiwut terminal (src/main.py): a sandboxed shell
keeping a `base_dir` (sandbox root) and a `current_dir`, with file-system
commands `ls`, `cd`, `mkdir`, `rmdir`, `rm`, `cp`, `cat` dispatched by a
`cmd.Cmd` REPL.

Paths are modelled as lists of path components.  `pathlib` paths are kept
lexically (`..` components are preserved by `/` and by `Path.parent`,
`Path.relative_to` is a purely lexical prefix test, `Path.__eq__` compares
components), while every OS call (`exists`, `is_dir`, `mkdir`, `rmdir`,
`os.remove`, `shutil.rmtree`, `shutil.copytree`, `open`) walks the path
componentwise, popping `..` against the real hierarchy, which is modelled
by `walkPath` over a pure file-system tree `FsNode` (no symlinks).

A regular file carries its byte size, its sequence of `readline` results —
`some line` for a chunk that decodes as UTF-8, `none` for a chunk whose
bytes raise `UnicodeDecodeError` — and its execute permission bit.

String primitives (`str.strip`, `str.split`, `pathlib` component splitting,
`cmd`'s identifier scan) are implemented over the character list of the
string so that every definition evaluates by kernel reduction.
-/

inductive FsNode where
  | file (size : Nat) (data : List (Option String)) (exec : Bool)
  | dir (children : List (String × FsNode))

/-- First child of the given name (directory entries are looked up by name;
real directories have unique names, duplicate names are resolved to the
first occurrence everywhere below, consistently). -/
def findChild : List (String × FsNode) → String → Option FsNode
  | [], _ => none
  | c :: rest, s => if c.1 = s then some c.2 else findChild rest s

/-- Node at a canonical (already `..`-free) path. -/
def lookup : FsNode → List String → Option FsNode
  | n, [] => some n
  | FsNode.dir cs, s :: rest =>
    match findChild cs s with
    | some c => lookup c rest
    | none => none
  | FsNode.file _ _ _, _ :: _ => none

def isDirAt (fs : FsNode) (p : List String) : Bool :=
  match lookup fs p with
  | some (FsNode.dir _) => true
  | _ => false

def isFileAt (fs : FsNode) (p : List String) : Bool :=
  match lookup fs p with
  | some (FsNode.file _ _ _) => true
  | _ => false

inductive WalkErr where
  | enoent
  | enotdir
deriving DecidableEq

/-- Componentwise POSIX path walk from canonical position `acc`: to consume
a component the current position must exist and be a directory; `..` steps
up (and stays at the file-system root).  Returns the canonical resolution;
the final component's own existence is not required (callers check it). -/
def walkPath (fs : FsNode) : List String → List String → Except WalkErr (List String)
  | acc, [] => Except.ok acc
  | acc, seg :: rest =>
    match lookup fs acc with
    | some (FsNode.dir _) =>
      if seg = ".." then walkPath fs acc.dropLast rest
      else walkPath fs (acc ++ [seg]) rest
    | some (FsNode.file _ _ _) => Except.error WalkErr.enotdir
    | none => Except.error WalkErr.enoent

/-- Purely lexical collapse of `..` components; `walkPath`'s successful
result is always this collapse (the walk only decides whether it errors). -/
def collapseAcc : List String → List String → List String
  | acc, [] => acc
  | acc, seg :: rest =>
    if seg = ".." then collapseAcc acc.dropLast rest
    else collapseAcc (acc ++ [seg]) rest

/-- `Path.exists()`: OS walk succeeds and the target is present. -/
def pexists (fs : FsNode) (p : List String) : Bool :=
  match walkPath fs [] p with
  | Except.ok cp => (lookup fs cp).isSome
  | Except.error _ => false

/-- `Path.is_dir()`. -/
def pIsDir (fs : FsNode) (p : List String) : Bool :=
  match walkPath fs [] p with
  | Except.ok cp => isDirAt fs cp
  | Except.error _ => false

/-- `Path.is_file()`. -/
def pIsFile (fs : FsNode) (p : List String) : Bool :=
  match walkPath fs [] p with
  | Except.ok cp => isFileAt fs cp
  | Except.error _ => false

/-- Split a character list at separator characters (`"a/b".split` keeping
empty groups, as `str.split('/')` does). -/
def splitChars (sep : Char → Bool) : List Char → List (List Char)
  | [] => [[]]
  | c :: rest =>
    let r := splitChars sep rest
    if sep c then [] :: r
    else
      match r with
      | g :: gs => (c :: g) :: gs
      | [] => [[c]]

/-- Components of a `pathlib` relative fragment: split on `/`, drop empty
and `.` components, keep `..` (exactly `PurePath.parts` of a relative path). -/
def parseFrag (s : String) : List String :=
  ((splitChars (fun c => c = '/') s.data).map (fun l => String.mk l)).filter
    (fun t => t != "" && t != ".")

/-- Does the string start with the given character (absolute-path test)? -/
def headIs (s : String) (c : Char) : Bool :=
  match s.data with
  | [] => false
  | d :: _ => d = c

/-- `base / frag` of `pathlib`: appends the fragment's components; an
absolute fragment replaces the base. -/
def pyJoin (base : List String) (frag : String) : List String :=
  if headIs frag '/' then parseFrag frag else base ++ parseFrag frag

/-- `str.split()` with no argument: split on whitespace runs, no empties. -/
def pySplit (s : String) : List String :=
  ((splitChars Char.isWhitespace s.data).map (fun l => String.mk l)).filter
    (fun t => t != "")

/-- `str.strip()`: drop leading and trailing whitespace. -/
def pyStrip (s : String) : String :=
  String.mk (((s.data.dropWhile Char.isWhitespace).reverse.dropWhile
    Char.isWhitespace).reverse)

/-- Update the first child slot of the given name: `f none` inserts at the
end of the listing when absent, `f (some c)` replaces or removes in place. -/
def updateChild (cs : List (String × FsNode)) (name : String)
    (f : Option FsNode → Option FsNode) : List (String × FsNode) :=
  match cs with
  | [] =>
    match f none with
    | some n => [(name, n)]
    | none => []
  | c :: rest =>
    if c.1 = name then
      match f (some c.2) with
      | some n => (c.1, n) :: rest
      | none => rest
    else c :: updateChild rest name f

/-- Update the child slot at the end of a canonical path; no-op when the
path is empty or does not descend through directories. -/
def updateAt : FsNode → List String → (Option FsNode → Option FsNode) → FsNode
  | n, [], _ => n
  | FsNode.dir cs, [s], f => FsNode.dir (updateChild cs s f)
  | FsNode.dir cs, s :: rest, f =>
    FsNode.dir (updateChild cs s (fun oc => oc.map (fun c => updateAt c rest f)))
  | n, _ :: _, _ => n

def nodupKeys : List String → Bool
  | [] => true
  | s :: rest => !(decide (s ∈ rest)) && nodupKeys rest

mutual
/-- Well-formedness of a node: every directory listing has unique names. -/
def wfNode : FsNode → Bool
  | FsNode.file _ _ _ => true
  | FsNode.dir cs => nodupKeys (cs.map Prod.fst) && wfChildren cs

def wfChildren : List (String × FsNode) → Bool
  | [] => true
  | c :: rest => wfNode c.2 && wfChildren rest
end

/-- Well-formed file system: the root is a directory and names are unique. -/
def wfFs (fs : FsNode) : Bool :=
  (match fs with
   | FsNode.dir _ => true
   | _ => false) && wfNode fs

/-- `os.makedirs(dst, exist_ok=True)` as used by `shutil.copytree`: walks the
lexical path from the file-system root creating every missing prefix
directory (`..` steps up past directories this walk has ensured exist);
errors when a needed component exists as a regular file.  Returns the
(partially mutated, as on a real failure) tree and the canonical target. -/
def makedirsGo (fs : FsNode) : List String → List String → FsNode × Option (List String)
  | acc, [] => (fs, some acc)
  | acc, seg :: rest =>
    if seg = ".." then makedirsGo fs acc.dropLast rest
    else
      match lookup fs (acc ++ [seg]) with
      | some (FsNode.dir _) => makedirsGo fs (acc ++ [seg]) rest
      | some (FsNode.file _ _ _) => (fs, none)
      | none =>
        makedirsGo (updateAt fs (acc ++ [seg]) (fun _ => some (FsNode.dir [])))
          (acc ++ [seg]) rest

mutual
/-- The copying loop of `shutil.copytree(src, dst, dirs_exist_ok=True)`:
source entries are copied over the destination listing in order — files
overwrite same-named files, directories merge recursively, other entries
are kept.  A kind conflict (file over directory or directory over file) is
recorded; `shutil` collects such errors and raises after the remaining
entries were copied, so copying continues and the flag is returned. -/
def copyChildren : List (String × FsNode) → List (String × FsNode) →
    List (String × FsNode) × Bool
  | [], dcs => (dcs, false)
  | (name, sn) :: rest, dcs =>
    let step := copyEntry name sn dcs
    let next := copyChildren rest step.1
    (next.1, step.2 || next.2)

/-- One entry of the `copytree` loop: `copy2` for a file, a recursive
`copytree` for a directory. -/
def copyEntry : String → FsNode → List (String × FsNode) →
    List (String × FsNode) × Bool
  | name, FsNode.file sz d x, dcs =>
    (match findChild dcs name with
     | none => (updateChild dcs name (fun _ => some (FsNode.file sz d x)), false)
     | some (FsNode.file _ _ _) =>
       (updateChild dcs name (fun _ => some (FsNode.file sz d x)), false)
     | some (FsNode.dir _) => (dcs, true))
  | name, FsNode.dir scs, dcs =>
    (match findChild dcs name with
     | none =>
       let inner := copyChildren scs []
       (updateChild dcs name (fun _ => some (FsNode.dir inner.1)), inner.2)
     | some (FsNode.dir dcs0) =>
       let inner := copyChildren scs dcs0
       (updateChild dcs name (fun _ => some (FsNode.dir inner.1)), inner.2)
     | some (FsNode.file _ _ _) => (dcs, true))
end

/-- Session state: sandbox root, current directory (both kept lexically, as
`pathlib` objects), the file system, and `cmd.Cmd.lastcmd`. -/
structure TermState where
  base_dir : List String
  current_dir : List String
  fs : FsNode
  lastcmd : String

inductive CdResult where
  | toRoot
  | atRootBoundary
  | notFound
  | accessDenied
  | changed
deriving DecidableEq

/-- The body of `do_cd`'s `try` block: existence/directory test, then the
lexical `relative_to(base_dir)` sandbox test, then the assignment. -/
def cdCheck (st : TermState) (target : List String) : CdResult × TermState :=
  if pexists st.fs target && pIsDir st.fs target then
    if st.base_dir.isPrefixOf target then
      (CdResult.changed, { st with current_dir := target })
    else (CdResult.accessDenied, st)
  else (CdResult.notFound, st)

def do_cd (st : TermState) (arg : String) : CdResult × TermState :=
  if arg = "" then (CdResult.toRoot, { st with current_dir := st.base_dir })
  else if arg = ".." then
    if st.current_dir = st.base_dir then (CdResult.atRootBoundary, st)
    else cdCheck st st.current_dir.dropLast
  else cdCheck st (pyJoin st.current_dir arg)

inductive MkdirResult where
  | usage
  | created
  | alreadyExists
  | oserror
deriving DecidableEq

def do_mkdir (st : TermState) (arg : String) : MkdirResult × TermState :=
  if arg = "" then (MkdirResult.usage, st)
  else
    match walkPath st.fs [] (pyJoin st.current_dir arg) with
    | Except.error _ => (MkdirResult.oserror, st)
    | Except.ok cp =>
      if (lookup st.fs cp).isSome then (MkdirResult.alreadyExists, st)
      else
        (MkdirResult.created,
          { st with fs := updateAt st.fs cp (fun _ => some (FsNode.dir [])) })

inductive RmdirResult where
  | usage
  | removed
  | notFound
  | notEmptyOrDenied
deriving DecidableEq

def do_rmdir (st : TermState) (arg : String) : RmdirResult × TermState :=
  if arg = "" then (RmdirResult.usage, st)
  else
    match walkPath st.fs [] (pyJoin st.current_dir arg) with
    | Except.error WalkErr.enoent => (RmdirResult.notFound, st)
    | Except.error WalkErr.enotdir => (RmdirResult.notEmptyOrDenied, st)
    | Except.ok cp =>
      match lookup st.fs cp with
      | none => (RmdirResult.notFound, st)
      | some (FsNode.file _ _ _) => (RmdirResult.notEmptyOrDenied, st)
      | some (FsNode.dir cs) =>
        if cs.isEmpty then
          if cp.isEmpty then (RmdirResult.notEmptyOrDenied, st)
          else (RmdirResult.removed,
            { st with fs := updateAt st.fs cp (fun _ => none) })
        else (RmdirResult.notEmptyOrDenied, st)

inductive RmResult where
  | usage
  | notFound
  | fileRemoved
  | dirRemoved
  | isADirectory
  | rmError
deriving DecidableEq

def do_rm (st : TermState) (arg : String) : RmResult × TermState :=
  let parts := pySplit arg
  if parts.isEmpty then (RmResult.usage, st)
  else
    let target_name := parts.getLastD ""
    match walkPath st.fs [] (pyJoin st.current_dir target_name) with
    | Except.error _ => (RmResult.notFound, st)
    | Except.ok cp =>
      match lookup st.fs cp with
      | none => (RmResult.notFound, st)
      | some (FsNode.file _ _ _) =>
        (RmResult.fileRemoved, { st with fs := updateAt st.fs cp (fun _ => none) })
      | some (FsNode.dir _) =>
        if parts.contains "-r" then
          if cp.isEmpty then (RmResult.rmError, st)
          else (RmResult.dirRemoved,
            { st with fs := updateAt st.fs cp (fun _ => none) })
        else (RmResult.isADirectory, st)

inductive CpResult where
  | usage
  | notFound
  | fileCopied
  | dirCopied
  | cpError
deriving DecidableEq

/-- `shutil.copy2(source_path, destination_path)`: a directory destination
receives the file under the source path's last lexical component;
the target is overwritten when present; copying a file onto itself
(`SameFileError`) or onto an existing directory errors. -/
def cpFile (st : TermState) (srcNode : FsNode) (scp : List String)
    (sp dp : List String) : CpResult × TermState :=
  let target := if pIsDir st.fs dp then dp ++ [sp.getLastD ""] else dp
  match walkPath st.fs [] target with
  | Except.error _ => (CpResult.cpError, st)
  | Except.ok tcp =>
    if tcp = scp then (CpResult.cpError, st)
    else
      match lookup st.fs tcp with
      | some (FsNode.dir _) => (CpResult.cpError, st)
      | _ =>
        if tcp.isEmpty then (CpResult.cpError, st)
        else (CpResult.fileCopied,
          { st with fs := updateAt st.fs tcp (fun _ => some srcNode) })

/-- `shutil.copytree(srcdir, dstLex, dirs_exist_ok=True)` given the source's
listing: ensure the destination directory (creating missing prefixes),
then copy the listing over it; a collected conflict surfaces as the
generic error after the partial copy was committed. -/
def cpTree (st : TermState) (scs : List (String × FsNode))
    (dstLex : List String) : CpResult × TermState :=
  match makedirsGo st.fs [] dstLex with
  | (fs1, none) => (CpResult.cpError, { st with fs := fs1 })
  | (fs1, some dcp) =>
    let dcs :=
      match lookup fs1 dcp with
      | some (FsNode.dir cs) => cs
      | _ => []
    let merged := copyChildren scs dcs
    let fs2 :=
      if dcp.isEmpty then FsNode.dir merged.1
      else updateAt fs1 dcp (fun _ => some (FsNode.dir merged.1))
    ((if merged.2 then CpResult.cpError else CpResult.dirCopied), { st with fs := fs2 })

def do_cp (st : TermState) (arg : String) : CpResult × TermState :=
  match pySplit arg with
  | [source, destination] =>
    let sp := pyJoin st.current_dir source
    let dp := pyJoin st.current_dir destination
    match walkPath st.fs [] sp with
    | Except.error _ => (CpResult.notFound, st)
    | Except.ok scp =>
      match lookup st.fs scp with
      | none => (CpResult.notFound, st)
      | some (FsNode.file sz d x) => cpFile st (FsNode.file sz d x) scp sp dp
      | some (FsNode.dir scs) =>
        if pexists st.fs dp && pIsDir st.fs dp then cpTree st scs (pyJoin dp source)
        else cpTree st scs dp
  | _ => (CpResult.usage, st)

inductive CatResult where
  | usage
  | notFound
  | fullText (lines : List String)
  | truncated (size : Nat) (lines : List String)
  | notText
deriving DecidableEq

def catMaxSize : Nat := 10 * 1024 * 1024

def do_cat (st : TermState) (arg : String) : CatResult × TermState :=
  if arg = "" then (CatResult.usage, st)
  else
    match walkPath st.fs [] (pyJoin st.current_dir arg) with
    | Except.error _ => (CatResult.notFound, st)
    | Except.ok cp =>
      match lookup st.fs cp with
      | some (FsNode.file sz data _) =>
        if sz > catMaxSize then
          let first := data.take 50
          if first.all Option.isSome then
            (CatResult.truncated sz (first.filterMap id), st)
          else (CatResult.notText, st)
        else
          if data.all Option.isSome then
            (CatResult.fullText (data.filterMap id), st)
          else (CatResult.notText, st)
      | _ => (CatResult.notFound, st)

structure LsRow where
  kind : String
  name : String
  size : Option Nat
deriving DecidableEq

def renderEntry : String × FsNode → LsRow
  | (name, FsNode.dir _) => { kind := "DIR", name := name, size := none }
  | (name, FsNode.file sz _ ex) =>
    { kind := if ex then "EXE" else "FILE", name := name, size := some sz }

/-- Name order on directory entries: Python compares the paths of a common
parent exactly by entry name in code-point order (stated on the character
lists, which is the same order as `String` `≤`: `String.le_iff_toList_le`). -/
def nameLe (a b : String × FsNode) : Prop := a.1.data ≤ b.1.data

instance : DecidableRel nameLe :=
  fun a b => inferInstanceAs (Decidable (a.1.data ≤ b.1.data))

instance : IsTotal (String × FsNode) nameLe := ⟨fun a b => le_total a.1.data b.1.data⟩

instance : IsTrans (String × FsNode) nameLe :=
  ⟨fun _ _ _ hab hbc => le_trans hab hbc⟩

/-- `sorted(target_path.iterdir())` then row rendering (Python's sort is a
stable comparison sort; so is insertion sort). -/
def lsRows (cs : List (String × FsNode)) : List LsRow :=
  (List.insertionSort nameLe cs).map renderEntry

inductive LsResult where
  | notFound
  | notADirectory
  | table (rows : List LsRow)
deriving DecidableEq

def do_ls (st : TermState) (arg : String) : LsResult :=
  let target := if arg = "" then st.current_dir else pyJoin st.current_dir arg
  match walkPath st.fs [] target with
  | Except.error _ => LsResult.notFound
  | Except.ok cp =>
    match lookup st.fs cp with
    | none => LsResult.notFound
    | some (FsNode.file _ _ _) => LsResult.notADirectory
    | some (FsNode.dir cs) => LsResult.table (lsRows cs)

inductive Out where
  | emptyOut
  | unknownOut (line : String)
  | pwdOut (p : List String)
  | lsOut (r : LsResult)
  | cdOut (r : CdResult)
  | mkdirOut (r : MkdirResult)
  | rmdirOut (r : RmdirResult)
  | rmOut (r : RmResult)
  | cpOut (r : CpResult)
  | catOut (r : CatResult)
  | helpOut
  | exitOut
deriving DecidableEq

def isIdentChar (c : Char) : Bool :=
  c.isAlpha || c.isDigit || c = '_'

/-- Longest identifier-character run at the head of the line and the rest
(`cmd.Cmd.parseline`'s command-name scan). -/
def spanIdent : List Char → List Char × List Char
  | [] => ([], [])
  | c :: rest =>
    if isIdentChar c then
      let r := spanIdent rest
      (c :: r.1, r.2)
    else ([], c :: rest)

/-- `cmd.Cmd.onecmd`: `parseline` (strip, `?` → `help`, `!` without a
`do_shell` → `default`, leading identifier characters form the command
name, stripped remainder is the argument), record `lastcmd` (cleared for
`EOF`), then route to the `do_` handler; unrecognized names hit `default`. -/
def doDispatch (st : TermState) (raw : String) : Bool × Out × TermState :=
  let line0 := pyStrip raw
  let line := if headIs line0 '?' then "help " ++ String.mk (line0.data.drop 1)
    else line0
  if headIs line0 '!' then (false, Out.unknownOut line0, st)
  else
    let sp := spanIdent line.data
    let c := String.mk sp.1
    let arg := pyStrip (String.mk sp.2)
    let st1 := { st with lastcmd := if line = "EOF" then "" else line }
    match c with
    | "pwd" => (false, Out.pwdOut st1.current_dir, st1)
    | "ls" => (false, Out.lsOut (do_ls st1 arg), st1)
    | "cd" =>
      let r := do_cd st1 arg
      (false, Out.cdOut r.1, r.2)
    | "mkdir" =>
      let r := do_mkdir st1 arg
      (false, Out.mkdirOut r.1, r.2)
    | "rmdir" =>
      let r := do_rmdir st1 arg
      (false, Out.rmdirOut r.1, r.2)
    | "rm" =>
      let r := do_rm st1 arg
      (false, Out.rmOut r.1, r.2)
    | "cp" =>
      let r := do_cp st1 arg
      (false, Out.cpOut r.1, r.2)
    | "cat" =>
      let r := do_cat st1 arg
      (false, Out.catOut r.1, r.2)
    | "help" => (false, Out.helpOut, st1)
    | "exit" => (true, Out.exitOut, st1)
    | "quit" => (true, Out.exitOut, st1)
    | "EOF" => (true, Out.exitOut, st1)
    | _ => (false, Out.unknownOut line, st1)

/-- The overridden `onecmd` of `TiwutTerminal`: a blank line calls
`cmd.Cmd.emptyline`, which re-dispatches `lastcmd` when one is recorded
(`lastcmd` is always stored stripped and non-blank; on the unreachable
whitespace-only value the real code would recurse forever, modelled as the
no-op). -/
def onecmd (st : TermState) (line : String) : Bool × Out × TermState :=
  if pyStrip line = "" then
    if st.lastcmd = "" then (false, Out.emptyOut, st)
    else if pyStrip st.lastcmd = "" then (false, Out.emptyOut, st)
    else doDispatch st st.lastcmd
  else doDispatch st line

/-! Section: Concrete states used as evidence and witnesses

`BASE_DIR = Path.home() / 'Documents' / 'TiwutApps'` for a home directory
`/home/user`; the surrounding hierarchy exists as on a real system. -/

def baseSegs : List String := ["home", "user", "Documents", "TiwutApps"]

def fsRootWith (appChildren : List (String × FsNode)) : FsNode :=
  FsNode.dir [("home", FsNode.dir [("user", FsNode.dir
    [("Documents", FsNode.dir [("TiwutApps", FsNode.dir appChildren)])])])]

def mkState (appChildren : List (String × FsNode)) (cur : List String)
    (last : String) : TermState :=
  { base_dir := baseSegs, current_dir := cur, fs := fsRootWith appChildren,
    lastcmd := last }

/-- Freshly initialised session: empty sandbox, current directory at root. -/
def stRoot : TermState := mkState [] baseSegs ""

/-- Session inside `TiwutApps/a` whose last executed command was `cd ..`. -/
def stCdA : TermState := mkState [("a", FsNode.dir [])] (baseSegs ++ ["a"]) "cd .."

/-- Sandbox holding a file `f` and a non-empty directory `d`. -/
def stRmDemo : TermState :=
  mkState [("f", FsNode.file 3 [some "x"] false),
    ("d", FsNode.dir [("g", FsNode.file 1 [] false)])] baseSegs ""

/-- Sandbox with directories `dirA`, `dirB`, `a/b` and `d` for the copy
scenarios. -/
def stCpDemo : TermState :=
  mkState
    [("dirA", FsNode.dir [("f", FsNode.file 1 [some "z"] false)]),
     ("dirB", FsNode.dir [("keep", FsNode.file 2 [] false)]),
     ("a", FsNode.dir [("b", FsNode.dir [("f", FsNode.file 1 [] false)])]),
     ("d", FsNode.dir [])] baseSegs ""

/-- A 20 MiB file whose first 50 lines decode but whose later content does
not, a 20 MiB cleanly decoding file, and a small undecodable file. -/
def stCatDemo : TermState :=
  mkState
    [("late", FsNode.file 20971520 (List.replicate 50 (some "x") ++ [none]) false),
     ("big", FsNode.file 20971520 (List.replicate 60 (some "x")) false),
     ("bin", FsNode.file 10 [some "a", none] false),
     ("small", FsNode.file 10 [some "a", some "b"] false)] baseSegs ""

/-- Directory listing `[b.txt, A, a.txt]` of the specification's `ls`
example. -/
def stLsDemo : TermState :=
  mkState [("b.txt", FsNode.file 1 [] false), ("A", FsNode.dir []),
    ("a.txt", FsNode.file 2 [] true)] baseSegs ""

/-- Sandbox holding only a file `z`. -/
def stMkDemo : TermState := mkState [("z", FsNode.file 1 [] false)] baseSegs ""

/-! Section: Directory-listing update lemmas -/

theorem findChild_eq_none_of_not_mem {cs : List (String × FsNode)} {s : String}
    (h : s ∉ cs.map Prod.fst) : findChild cs s = none := by
  induction cs with
  | nil => rfl
  | cons c rest ih =>
    simp only [List.map_cons, List.mem_cons, not_or] at h
    have hc : c.1 ≠ s := fun hh => h.1 hh.symm
    simp only [findChild, if_neg hc]
    exact ih h.2

theorem findChild_append_none {cs l2 : List (String × FsNode)} {s : String}
    (h : findChild cs s = none) : findChild (cs ++ l2) s = findChild l2 s := by
  induction cs with
  | nil => rfl
  | cons c rest ih =>
    by_cases hc : c.1 = s
    · simp [findChild, if_pos hc] at h
    · simp only [findChild, if_neg hc] at h
      simpa [findChild, if_neg hc] using ih h

theorem findChild_append_some {cs l2 : List (String × FsNode)} {s : String}
    {c : FsNode} (h : findChild cs s = some c) :
    findChild (cs ++ l2) s = some c := by
  induction cs with
  | nil => simp [findChild] at h
  | cons d rest ih =>
    simp only [findChild] at h ⊢
    by_cases hd : d.1 = s
    · simpa [if_pos hd] using h
    · simp only [if_neg hd] at h ⊢
      exact ih h

theorem findChild_updateChild_self_map (cs : List (String × FsNode)) (s : String)
    (g : FsNode → FsNode) :
    findChild (updateChild cs s (fun oc => oc.map g)) s = (findChild cs s).map g := by
  induction cs with
  | nil => rfl
  | cons c rest ih =>
    by_cases h : c.1 = s
    · simp [updateChild, findChild, h]
    · simp [updateChild, findChild, h, ih]

theorem findChild_updateChild_self_some (cs : List (String × FsNode)) (s : String)
    (v : FsNode) :
    findChild (updateChild cs s (fun _ => some v)) s = some v := by
  induction cs with
  | nil => simp [updateChild, findChild]
  | cons c rest ih =>
    by_cases h : c.1 = s
    · simp [updateChild, findChild, h]
    · simp [updateChild, findChild, h, ih]

theorem findChild_updateChild_ne (cs : List (String × FsNode)) {s t : String}
    (f : Option FsNode → Option FsNode) (h : t ≠ s) :
    findChild (updateChild cs s f) t = findChild cs t := by
  have hst : s ≠ t := fun hh => h hh.symm
  induction cs with
  | nil =>
    cases hf : f none with
    | none => simp [updateChild, hf, findChild]
    | some v => simp [updateChild, hf, findChild, if_neg hst]
  | cons c rest ih =>
    by_cases hc : c.1 = s
    · have hct : c.1 ≠ t := fun hh => hst (hc.symm.trans hh)
      cases hf : f (some c.2) with
      | none =>
        simp only [updateChild, if_pos hc, hf]
        simp [findChild, if_neg hct]
      | some v =>
        simp only [updateChild, if_pos hc, hf]
        simp [findChild, if_neg hct]
    · simp only [updateChild, if_neg hc]
      simp [findChild, ih]

theorem findChild_updateChild_self_none {cs : List (String × FsNode)} {s : String}
    (h : nodupKeys (cs.map Prod.fst) = true) :
    findChild (updateChild cs s (fun _ => none)) s = none := by
  induction cs with
  | nil => rfl
  | cons c rest ih =>
    simp only [List.map_cons, nodupKeys, Bool.and_eq_true, Bool.not_eq_true',
      decide_eq_false_iff_not] at h
    by_cases hc : c.1 = s
    · simp only [updateChild, if_pos hc]
      exact findChild_eq_none_of_not_mem (hc ▸ h.1)
    · simp only [updateChild, if_neg hc, findChild, if_neg hc]
      exact ih h.2

theorem updateChild_eq_append {cs : List (String × FsNode)} {s : String}
    (v : FsNode) (h : findChild cs s = none) :
    updateChild cs s (fun _ => some v) = cs ++ [(s, v)] := by
  induction cs with
  | nil => rfl
  | cons c rest ih =>
    simp only [findChild] at h
    by_cases hc : c.1 = s
    · simp [if_pos hc] at h
    · simp only [if_neg hc] at h
      simp [updateChild, if_neg hc, ih h]

theorem updateChild_append_none {cs : List (String × FsNode)} {s : String}
    (v : FsNode) (h : findChild cs s = none) :
    updateChild (cs ++ [(s, v)]) s (fun _ => none) = cs := by
  induction cs with
  | nil => simp [updateChild]
  | cons c rest ih =>
    simp only [findChild] at h
    by_cases hc : c.1 = s
    · simp [if_pos hc] at h
    · simp only [if_neg hc] at h
      simp [updateChild, if_neg hc, ih h]

theorem updateChild_eq_self {cs : List (String × FsNode)} {s : String}
    {f : Option FsNode → Option FsNode} (h : findChild cs s = none)
    (hf : f none = none) : updateChild cs s f = cs := by
  induction cs with
  | nil => simp [updateChild, hf]
  | cons c rest ih =>
    simp only [findChild] at h
    by_cases hc : c.1 = s
    · simp [if_pos hc] at h
    · simp only [if_neg hc] at h
      simp [updateChild, if_neg hc, ih h]

theorem updateChild_map_twice {cs : List (String × FsNode)} {s : String}
    {g1 g2 : FsNode → FsNode}
    (h : ∀ c, findChild cs s = some c → g2 (g1 c) = c) :
    updateChild (updateChild cs s (fun oc => oc.map g1)) s
      (fun oc => oc.map g2) = cs := by
  induction cs with
  | nil => rfl
  | cons c rest ih =>
    by_cases hc : c.1 = s
    · have hcc := h c.2 (by simp [findChild, if_pos hc])
      simp [updateChild, if_pos hc, hcc]
    · have ih' := ih (fun d hd => h d (by simp [findChild, if_neg hc, hd]))
      simp [updateChild, if_neg hc, ih']

/-! Section: Well-formedness and lookup lemmas -/

theorem isDirAt_iff {fs : FsNode} {p : List String} :
    isDirAt fs p = true ↔ ∃ cs, lookup fs p = some (FsNode.dir cs) := by
  unfold isDirAt
  split
  · next cs hl => simp [hl]
  · next hn =>
    constructor
    · intro hc; cases hc
    · rintro ⟨cs, hl⟩
      exact absurd hl (by intro hh; exact (hn cs hh).elim)

theorem wfChildren_findChild {cs : List (String × FsNode)} {c : FsNode} {s : String}
    (h : wfChildren cs = true) (hf : findChild cs s = some c) : wfNode c = true := by
  induction cs with
  | nil => simp [findChild] at hf
  | cons d rest ih =>
    simp only [wfChildren, Bool.and_eq_true] at h
    simp only [findChild] at hf
    by_cases hd : d.1 = s
    · rw [if_pos hd] at hf
      cases hf
      exact h.1
    · rw [if_neg hd] at hf
      exact ih h.2 hf

theorem wfNode_dir_parts {cs : List (String × FsNode)}
    (h : wfNode (FsNode.dir cs) = true) :
    nodupKeys (cs.map Prod.fst) = true ∧ wfChildren cs = true := by
  simpa [wfNode, Bool.and_eq_true] using h

theorem wfNode_lookup {n : FsNode} :
    ∀ (p : List String) (fs : FsNode), wfNode fs = true → lookup fs p = some n →
    wfNode n = true := by
  intro p
  induction p with
  | nil =>
    intro fs hw hl
    simp only [lookup, Option.some.injEq] at hl
    exact hl ▸ hw
  | cons s rest ih =>
    intro fs hw hl
    cases fs with
    | file sz d x => simp [lookup] at hl
    | dir cs =>
      simp only [lookup] at hl
      cases hfc : findChild cs s with
      | none => rw [hfc] at hl; simp at hl
      | some c =>
        rw [hfc] at hl
        simp only at hl
        exact ih c (wfChildren_findChild (wfNode_dir_parts hw).2 hfc) hl

theorem lookup_updateAt_ins (v : FsNode) :
    ∀ (p : List String) (fs : FsNode), p ≠ [] → isDirAt fs p.dropLast = true →
    lookup (updateAt fs p (fun _ => some v)) p = some v := by
  intro p
  induction p with
  | nil => intro fs h _; exact absurd rfl h
  | cons s rest ih =>
    intro fs _ hdir
    cases rest with
    | nil =>
      cases fs with
      | file sz d x => simp [isDirAt, lookup] at hdir
      | dir cs =>
        simp only [updateAt, lookup]
        rw [findChild_updateChild_self_some]
    | cons t ts =>
      cases fs with
      | file sz d x => simp [isDirAt, lookup] at hdir
      | dir cs =>
        have hdl : (s :: t :: ts).dropLast = s :: (t :: ts).dropLast := rfl
        rw [hdl] at hdir
        cases hfc : findChild cs s with
        | none => simp [isDirAt, lookup, hfc] at hdir
        | some c =>
          have hdc : isDirAt c (t :: ts).dropLast = true := by
            simpa [isDirAt, lookup, hfc] using hdir
          simp only [updateAt, lookup]
          rw [findChild_updateChild_self_map, hfc]
          simp only [Option.map_some']
          exact ih c (by simp) hdc

theorem lookup_updateAt_del :
    ∀ (p : List String) (fs : FsNode), wfNode fs = true →
    (lookup fs p).isSome = true → p ≠ [] →
    lookup (updateAt fs p (fun _ => none)) p = none := by
  intro p
  induction p with
  | nil => intro fs _ _ h; exact absurd rfl h
  | cons s rest ih =>
    intro fs hw hsome _
    cases rest with
    | nil =>
      cases fs with
      | file sz d x => simp [lookup] at hsome
      | dir cs =>
        simp only [updateAt, lookup]
        rw [findChild_updateChild_self_none (wfNode_dir_parts hw).1]
    | cons t ts =>
      cases fs with
      | file sz d x => simp [lookup] at hsome
      | dir cs =>
        cases hfc : findChild cs s with
        | none => simp [lookup, hfc] at hsome
        | some c =>
          have hsc : (lookup c (t :: ts)).isSome = true := by
            simpa [lookup, hfc] using hsome
          simp only [updateAt, lookup]
          rw [findChild_updateChild_self_map, hfc]
          simp only [Option.map_some']
          exact ih c (wfChildren_findChild (wfNode_dir_parts hw).2 hfc) hsc (by simp)

theorem isDirAt_updateAt_ins (v : FsNode) :
    ∀ (q : List String) (fs : FsNode), lookup fs q = none →
    ∀ r, isDirAt fs r = true → isDirAt (updateAt fs q (fun _ => some v)) r = true := by
  intro q
  induction q with
  | nil => intro fs h; simp [lookup] at h
  | cons s rest ih =>
    intro fs h r hr
    cases rest with
    | nil =>
      cases fs with
      | file sz d x => simpa [updateAt] using hr
      | dir cs =>
        have hfc : findChild cs s = none := by
          cases hfc : findChild cs s with
          | none => rfl
          | some c => simp [lookup, hfc] at h
        simp only [updateAt]
        rw [updateChild_eq_append v hfc]
        cases r with
        | nil => simp [isDirAt, lookup]
        | cons t r' =>
          cases hft : findChild cs t with
          | none => simp [isDirAt, lookup, hft] at hr
          | some c =>
            have : isDirAt c r' = true := by simpa [isDirAt, lookup, hft] using hr
            simpa [isDirAt, lookup, findChild_append_some hft] using this
    | cons u us =>
      cases fs with
      | file sz d x => simpa [updateAt] using hr
      | dir cs =>
        cases hfc : findChild cs s with
        | none =>
          have heq : updateChild cs s
              (fun oc => oc.map (fun c => updateAt c (u :: us) (fun _ => some v))) = cs :=
            updateChild_eq_self hfc (by simp)
          simpa [updateAt, heq] using hr
        | some c =>
          have hlc : lookup c (u :: us) = none := by
            simpa [lookup, hfc] using h
          simp only [updateAt]
          cases r with
          | nil => simp [isDirAt, lookup]
          | cons t r' =>
            by_cases hts : t = s
            · subst hts
              have hrt : isDirAt c r' = true := by
                simpa [isDirAt, lookup, hfc] using hr
              have := ih c hlc r' hrt
              simp only [isDirAt, lookup]
              rw [findChild_updateChild_self_map, hfc]
              simpa [isDirAt, lookup] using this
            · have := findChild_updateChild_ne cs
                (fun oc => oc.map (fun c => updateAt c (u :: us) (fun _ => some v))) hts
              simp only [isDirAt, lookup] at hr ⊢
              rw [this]
              exact hr

/-! Section: Path-walk lemmas -/

theorem walk_ok_collapse {fs : FsNode} :
    ∀ (p acc c : List String), walkPath fs acc p = Except.ok c →
    c = collapseAcc acc p := by
  intro p
  induction p with
  | nil =>
    intro acc c h
    simp only [walkPath, Except.ok.injEq] at h
    simp [collapseAcc, h]
  | cons seg rest ih =>
    intro acc c h
    simp only [walkPath] at h
    split at h
    · by_cases hs : seg = ".."
      · rw [if_pos hs] at h
        simp only [collapseAcc, if_pos hs]
        exact ih _ _ h
      · rw [if_neg hs] at h
        simp only [collapseAcc, if_neg hs]
        exact ih _ _ h
    · cases h
    · cases h

theorem walk_cons_dir {fs : FsNode} {acc c : List String} {x : String}
    {xs : List String} (h : walkPath fs acc (x :: xs) = Except.ok c) :
    isDirAt fs acc = true := by
  simp only [walkPath] at h
  split at h
  · next cs hl => simp [isDirAt, hl]
  · cases h
  · cases h

theorem walk_mono {fs fs' : FsNode}
    (hpres : ∀ r, isDirAt fs r = true → isDirAt fs' r = true) :
    ∀ (p acc c : List String), walkPath fs acc p = Except.ok c →
    walkPath fs' acc p = Except.ok c := by
  intro p
  induction p with
  | nil => intro acc c h; simpa [walkPath] using h
  | cons seg rest ih =>
    intro acc c h
    simp only [walkPath] at h ⊢
    split at h
    · next cs hl =>
      obtain ⟨cs', hl'⟩ := isDirAt_iff.mp (hpres acc (isDirAt_iff.mpr ⟨cs, hl⟩))
      rw [hl']
      by_cases hs : seg = ".."
      · rw [if_pos hs] at h ⊢
        exact ih _ _ h
      · rw [if_neg hs] at h ⊢
        exact ih _ _ h
    · cases h
    · cases h

theorem walk_append_seg {fs : FsNode} {s : String} (hs : s ≠ "..") :
    ∀ (l acc c : List String), walkPath fs acc l = Except.ok c →
    isDirAt fs c = true →
    walkPath fs acc (l ++ [s]) = Except.ok (c ++ [s]) := by
  intro l
  induction l with
  | nil =>
    intro acc c h hdir
    simp only [walkPath, Except.ok.injEq] at h
    subst h
    obtain ⟨cs, hl⟩ := isDirAt_iff.mp hdir
    simp [walkPath, hl, if_neg hs]
  | cons x xs ih =>
    intro acc c h hdir
    simp only [List.cons_append, walkPath] at h ⊢
    split at h
    · next cs hl =>
      by_cases hx : x = ".."
      · rw [if_pos hx] at h ⊢
        exact ih _ _ h hdir
      · rw [if_neg hx] at h ⊢
        exact ih _ _ h hdir
    · cases h
    · cases h

theorem pexists_of_pIsDir {fs : FsNode} {p : List String}
    (h : pIsDir fs p = true) : pexists fs p = true := by
  unfold pIsDir at h
  unfold pexists
  split at h
  · obtain ⟨cs, hl⟩ := isDirAt_iff.mp h
    simp [hl]
  · cases h

/-! Section: `makedirs` lemmas -/

theorem makedirsGo_append :
    ∀ (l r : List String) (fs : FsNode) (acc : List String),
    makedirsGo fs acc (l ++ r) =
      (match makedirsGo fs acc l with
       | (fs1, some c) => makedirsGo fs1 c r
       | (fs1, none) => (fs1, none)) := by
  intro l
  induction l with
  | nil => intro r fs acc; simp [makedirsGo]
  | cons seg rest ih =>
    intro r fs acc
    simp only [List.cons_append, makedirsGo]
    by_cases hs : seg = ".."
    · rw [if_pos hs, if_pos hs]
      exact ih r fs acc.dropLast
    · rw [if_neg hs, if_neg hs]
      cases hl : lookup fs (acc ++ [seg]) with
      | none => simp only; exact ih r _ (acc ++ [seg])
      | some n =>
        cases n with
        | dir cs => simp only; exact ih r fs (acc ++ [seg])
        | file sz d x => simp only

theorem makedirsGo_of_walk {fs : FsNode} :
    ∀ (p acc c : List String), walkPath fs acc p = Except.ok c →
    isDirAt fs c = true → makedirsGo fs acc p = (fs, some c) := by
  intro p
  induction p with
  | nil =>
    intro acc c h _
    simp only [walkPath, Except.ok.injEq] at h
    simp [makedirsGo, h]
  | cons seg rest ih =>
    intro acc c h hdir
    simp only [walkPath] at h
    split at h
    · next cs hl =>
      by_cases hs : seg = ".."
      · rw [if_pos hs] at h
        simp only [makedirsGo, if_pos hs]
        exact ih _ _ h hdir
      · rw [if_neg hs] at h
        have hnext : isDirAt fs (acc ++ [seg]) = true := by
          cases rest with
          | nil =>
            simp only [walkPath, Except.ok.injEq] at h
            exact h ▸ hdir
          | cons y ys => exact walk_cons_dir h
        obtain ⟨cs', hl'⟩ := isDirAt_iff.mp hnext
        simp only [makedirsGo, if_neg hs]
        rw [hl']
        exact ih _ _ h hdir
    · cases h
    · cases h

/-! Section: Insert-then-delete restores the tree -/

theorem updateAt_ins_del (v : FsNode) :
    ∀ (p : List String) (fs : FsNode), lookup fs p = none →
    updateAt (updateAt fs p (fun _ => some v)) p (fun _ => none) = fs := by
  intro p
  induction p with
  | nil => intro fs h; simp [lookup] at h
  | cons s rest ih =>
    intro fs h
    cases rest with
    | nil =>
      cases fs with
      | file sz d x => rfl
      | dir cs =>
        have hfc : findChild cs s = none := by
          cases hfc : findChild cs s with
          | none => rfl
          | some c => simp [lookup, hfc] at h
        simp only [updateAt]
        rw [updateChild_eq_append v hfc, updateChild_append_none v hfc]
    | cons t ts =>
      cases fs with
      | file sz d x => rfl
      | dir cs =>
        cases hfc : findChild cs s with
        | none =>
          have h1 : updateChild cs s (fun oc => oc.map
              (fun c => updateAt c (t :: ts) (fun _ => some v))) = cs :=
            updateChild_eq_self hfc (by simp)
          have h2 : updateChild cs s (fun oc => oc.map
              (fun c => updateAt c (t :: ts) (fun _ => none))) = cs :=
            updateChild_eq_self hfc (by simp)
          simp only [updateAt, h1, h2]
        | some c =>
          have hlc : lookup c (t :: ts) = none := by
            simpa [lookup, hfc] using h
          simp only [updateAt]
          rw [updateChild_map_twice]
          intro d hd
          rw [hfc] at hd
          cases hd
          exact ih c hlc

/-! Section: `copytree` merge lemmas -/

theorem findChild_copyEntry_ne {dcs : List (String × FsNode)} {name nm : String}
    (sn : FsNode) (h : nm ≠ name) :
    findChild (copyEntry name sn dcs).1 nm = findChild dcs nm := by
  cases sn with
  | file sz d x =>
    simp only [copyEntry]
    cases hfc : findChild dcs name with
    | none => exact findChild_updateChild_ne dcs _ h
    | some c =>
      cases c with
      | file s2 d2 x2 => exact findChild_updateChild_ne dcs _ h
      | dir cs2 => rfl
  | dir scs =>
    simp only [copyEntry]
    cases hfc : findChild dcs name with
    | none => exact findChild_updateChild_ne dcs _ h
    | some c =>
      cases c with
      | dir cs2 => exact findChild_updateChild_ne dcs _ h
      | file s2 d2 x2 => rfl

theorem copyChildren_keep {nm : String} :
    ∀ (scs dcs : List (String × FsNode)), findChild scs nm = none →
    findChild (copyChildren scs dcs).1 nm = findChild dcs nm := by
  intro scs
  induction scs with
  | nil => intro dcs _; simp [copyChildren]
  | cons c rest ih =>
    intro dcs h
    obtain ⟨name, sn⟩ := c
    simp only [findChild] at h
    by_cases hne : name = nm
    · rw [if_pos (by simpa using hne)] at h
      cases h
    · rw [if_neg (by simpa using hne)] at h
      have hnm : nm ≠ name := fun hh => hne hh.symm
      simp only [copyChildren]
      rw [ih _ h, findChild_copyEntry_ne sn hnm]

/-- Fuel-indexed form of the fresh-copy lemma: copying a well-formed source
listing into a listing that shares no names appends it unchanged. -/
theorem copyChildren_disjoint_fuel :
    ∀ (n : Nat) (scs dcs : List (String × FsNode)), sizeOf scs ≤ n →
    nodupKeys (scs.map Prod.fst) = true → wfChildren scs = true →
    (∀ pr ∈ scs, findChild dcs pr.1 = none) →
    copyChildren scs dcs = (dcs ++ scs, false) := by
  intro n
  induction n with
  | zero =>
    intro scs dcs hsz _ _ _
    exfalso
    cases scs <;> simp at hsz
  | succ n ih =>
    intro scs dcs hsz hnd hwc hdisj
    cases scs with
    | nil => simp [copyChildren]
    | cons c rest =>
      obtain ⟨name, sn⟩ := c
      have hfc : findChild dcs name = none := hdisj (name, sn) (by simp)
      have hwsn : wfNode sn = true := by
        simp only [wfChildren, Bool.and_eq_true] at hwc
        exact hwc.1
      have hwrest : wfChildren rest = true := by
        simp only [wfChildren, Bool.and_eq_true] at hwc
        exact hwc.2
      have hnotmem : name ∉ rest.map Prod.fst := by
        simp only [List.map_cons, nodupKeys, Bool.and_eq_true, Bool.not_eq_true',
          decide_eq_false_iff_not] at hnd
        exact hnd.1
      have hndrest : nodupKeys (rest.map Prod.fst) = true := by
        simp only [List.map_cons, nodupKeys, Bool.and_eq_true] at hnd
        exact hnd.2
      have hstep : copyEntry name sn dcs = (dcs ++ [(name, sn)], false) := by
        cases sn with
        | file sz d x =>
          simp only [copyEntry]
          rw [hfc]
          rw [updateChild_eq_append _ hfc]
        | dir scs' =>
          have hinner : copyChildren scs' [] = (scs', false) := by
            have hw' := wfNode_dir_parts hwsn
            refine ih scs' [] ?_ hw'.1 hw'.2 (fun pr _ => rfl)
            have : sizeOf scs' < sizeOf ((name, FsNode.dir scs') :: rest) := by
              simp only [List.cons.sizeOf_spec, Prod.mk.sizeOf_spec,
                FsNode.dir.sizeOf_spec]
              omega
            omega
          simp only [copyEntry]
          rw [hfc, hinner]
          rw [updateChild_eq_append _ hfc]
      have hnext : copyChildren rest (dcs ++ [(name, sn)]) =
          ((dcs ++ [(name, sn)]) ++ rest, false) := by
        refine ih rest (dcs ++ [(name, sn)]) ?_ hndrest hwrest ?_
        · have : sizeOf rest < sizeOf ((name, sn) :: rest) := by
            simp only [List.cons.sizeOf_spec]
            omega
          omega
        · intro pr hpr
          have hprne : pr.1 ≠ name := by
            intro hh
            exact hnotmem (hh ▸ List.mem_map_of_mem Prod.fst hpr)
          rw [findChild_append_none (hdisj pr (List.mem_cons_of_mem _ hpr))]
          have hnp : ¬ name = pr.1 := fun hh => hprne hh.symm
          simp [findChild, hnp]
      simp only [copyChildren]
      rw [hstep, hnext]
      simp

/-- Copying a well-formed source listing into a listing sharing no names
appends it unchanged, reporting no conflict. -/
theorem copyChildren_disjoint {scs dcs : List (String × FsNode)}
    (hw : wfNode (FsNode.dir scs) = true)
    (hdisj : ∀ pr ∈ scs, findChild dcs pr.1 = none) :
    copyChildren scs dcs = (dcs ++ scs, false) :=
  copyChildren_disjoint_fuel (sizeOf scs) scs dcs le_rfl
    (wfNode_dir_parts hw).1 (wfNode_dir_parts hw).2 hdisj

/-! Section: Updates on one branch do not affect sibling branches -/

theorem lookup_updateAt_diverge {a b : String} (h : a ≠ b)
    (f : Option FsNode → Option FsNode) :
    ∀ (r s t : List String) (fs : FsNode),
    lookup (updateAt fs (r ++ a :: s) f) (r ++ b :: t) =
      lookup fs (r ++ b :: t) := by
  intro r
  induction r with
  | nil =>
    intro s t fs
    cases fs with
    | file sz d x => simp [updateAt]
    | dir cs =>
      have hba : b ≠ a := fun hh => h hh.symm
      cases s with
      | nil =>
        simp only [List.nil_append, updateAt, lookup]
        rw [findChild_updateChild_ne cs f hba]
      | cons u us =>
        simp only [List.nil_append, updateAt, lookup]
        rw [findChild_updateChild_ne cs _ hba]
  | cons x r' ih =>
    intro s t fs
    cases fs with
    | file sz d x2 => simp [updateAt]
    | dir cs =>
      simp only [List.cons_append]
      cases hys : r' ++ a :: s with
      | nil => simp at hys
      | cons y ys =>
        simp only [updateAt, lookup]
        rw [findChild_updateChild_self_map]
        cases hfc : findChild cs x with
        | none => rfl
        | some c =>
          simp only [Option.map_some']
          rw [← hys]
          exact ih s t c

/-- After removing the node that a path resolves to, the path no longer
exists. -/
theorem pexists_after_del {fs : FsNode} {p cp : List String}
    (hwf : wfNode fs = true) (hw : walkPath fs [] p = Except.ok cp)
    (hs : (lookup fs cp).isSome = true) (hne : cp ≠ []) :
    pexists (updateAt fs cp (fun _ => none)) p = false := by
  have hdel := lookup_updateAt_del cp fs hwf hs hne
  have hcol := walk_ok_collapse p [] cp hw
  unfold pexists
  split
  · next cp2 hw2 =>
    have h2 : cp2 = collapseAcc [] p := walk_ok_collapse _ _ _ hw2
    rw [h2, ← hcol, hdel]
    rfl
  · rfl

/-! Section: `cd` helper lemmas -/

theorem cdCheck_fail_state {st : TermState} {t : List String}
    (h : (cdCheck st t).1 ≠ CdResult.changed) : (cdCheck st t).2 = st := by
  unfold cdCheck at h ⊢
  split_ifs at h ⊢ <;> first | rfl | exact absurd rfl h

theorem cdCheck_changed {st : TermState} {t : List String}
    (hdir : pIsDir st.fs t = true) (hpre : st.base_dir.isPrefixOf t = true) :
    cdCheck st t = (CdResult.changed, { st with current_dir := t }) := by
  unfold cdCheck
  rw [pexists_of_pIsDir hdir, hdir, hpre]
  rfl

/-! Section: Claim theorems -/

/-- C1: the specification requires every operation (here `mkdir`) to fail
with `AccessDenied`/`SandboxViolation` and mutate nothing when the target's
canonical resolution lies outside the sandbox root, even when the target
does not yet exist.  The code does not check this: from the sandbox root,
`mkdir ../evil` reports success and creates `~/Documents/evil`, whose
canonical path is not below the root — a file-system mutation outside the
sandbox. -/
theorem C1_mkdir_escapes_sandbox :
    (do_mkdir stRoot "../evil").1 = MkdirResult.created ∧
    walkPath stRoot.fs [] (pyJoin stRoot.current_dir "../evil") =
      Except.ok ["home", "user", "Documents", "evil"] ∧
    lookup (do_mkdir stRoot "../evil").2.fs ["home", "user", "Documents", "evil"] =
      some (FsNode.dir []) ∧
    stRoot.base_dir.isPrefixOf ["home", "user", "Documents", "evil"] = false :=
  ⟨by decide, by rfl, by rfl, by decide⟩

/-- C2: the specification's invariant says `current_dir` is always the
sandbox root or a canonical descendant of it.  `cd ../..` from the root
passes the purely lexical `relative_to` test and succeeds, leaving
`current_dir` at `root/../..`, which canonically resolves to the home
directory — outside the sandbox root. -/
theorem C2_cd_escapes_sandbox :
    (do_cd stRoot "../..").1 = CdResult.changed ∧
    (do_cd stRoot "../..").2.current_dir = stRoot.base_dir ++ ["..", ".."] ∧
    walkPath stRoot.fs [] (stRoot.base_dir ++ ["..", ".."]) =
      Except.ok ["home", "user"] ∧
    stRoot.base_dir.isPrefixOf ["home", "user"] = false :=
  ⟨by decide, by decide, by rfl, by decide⟩

/-- C3: `cd` with an empty fragment resets to the root and always succeeds;
`cd ..` at the root fails with the boundary warning leaving the state
unchanged, and otherwise (when the lexical parent exists as a directory
inside the root) moves to the parent; every failure result of `cd` leaves
the whole state unchanged. -/
theorem C3_cd_semantics (st : TermState) :
    (do_cd st "" = (CdResult.toRoot, { st with current_dir := st.base_dir })) ∧
    (st.current_dir = st.base_dir →
      do_cd st ".." = (CdResult.atRootBoundary, st)) ∧
    (st.current_dir ≠ st.base_dir →
      pIsDir st.fs st.current_dir.dropLast = true →
      st.base_dir.isPrefixOf st.current_dir.dropLast = true →
      do_cd st ".." =
        (CdResult.changed, { st with current_dir := st.current_dir.dropLast })) ∧
    (∀ arg, ((do_cd st arg).1 = CdResult.atRootBoundary ∨
        (do_cd st arg).1 = CdResult.notFound ∨
        (do_cd st arg).1 = CdResult.accessDenied) →
      (do_cd st arg).2 = st) := by
  refine ⟨?_, ?_, ?_, ?_⟩
  · unfold do_cd
    rw [if_pos rfl]
  · intro h
    unfold do_cd
    rw [if_neg (by decide : (".." : String) ≠ ""), if_pos rfl, if_pos h]
  · intro hne hdir hpre
    unfold do_cd
    rw [if_neg (by decide : (".." : String) ≠ ""), if_pos rfl, if_neg hne]
    exact cdCheck_changed hdir hpre
  · intro arg h
    unfold do_cd at h ⊢
    by_cases h0 : arg = ""
    · rw [if_pos h0] at h
      rcases h with h | h | h <;> simp at h
    · rw [if_neg h0] at h ⊢
      by_cases h1 : arg = ".."
      · rw [if_pos h1] at h ⊢
        by_cases h2 : st.current_dir = st.base_dir
        · rw [if_pos h2] at h ⊢
        · rw [if_neg h2] at h ⊢
          apply cdCheck_fail_state
          intro hc
          rcases h with h | h | h <;> rw [hc] at h <;> simp at h
      · rw [if_neg h1] at h ⊢
        apply cdCheck_fail_state
        intro hc
        rcases h with h | h | h <;> rw [hc] at h <;> simp at h

/-- C3 witness: `cd ..` inside `TiwutApps/a` moves to the parent. -/
theorem C3_cd_semantics_witness :
    do_cd stCdA ".." =
      (CdResult.changed, { stCdA with current_dir := stCdA.current_dir.dropLast }) :=
  (C3_cd_semantics stCdA).2.2.1 (by decide) (by decide) (by decide)

/-- C4 counterexample: the claim says an empty input line is a no-op for
every session state.  In the state inside `TiwutApps/a` whose recorded
`lastcmd` is `cd ..` (exactly what `cmd.Cmd` stores after that command), an
empty line re-runs `cd ..` and moves the current directory to the root —
the session state changes. -/
theorem C4_empty_line_not_noop :
    (onecmd stCdA "").2.1 = Out.cdOut CdResult.changed ∧
    (onecmd stCdA "").2.2.current_dir = stCdA.base_dir ∧
    (onecmd stCdA "").2.2.current_dir ≠ stCdA.current_dir :=
  ⟨by decide, by decide, by decide⟩

/-- C4 amended: an empty (or whitespace-only) line is a no-op only when no
previous command is recorded (`lastcmd` empty, as at session start);
otherwise the inherited `cmd.Cmd.emptyline` re-dispatches the recorded
last command, which may change the session state. -/
theorem C4_empty_line_dispatch (st : TermState) (line : String)
    (hline : pyStrip line = "") :
    (st.lastcmd = "" → onecmd st line = (false, Out.emptyOut, st)) ∧
    (pyStrip st.lastcmd ≠ "" → onecmd st line = doDispatch st st.lastcmd) := by
  constructor
  · intro h
    simp [onecmd, hline, h]
  · intro h
    have hlast : st.lastcmd ≠ "" := by
      intro hh
      apply h
      rw [hh]
      rfl
    simp [onecmd, hline, hlast, h]

/-- C4 witness: a blank line at session start is a no-op; a blank line
after `cd ..` re-dispatches `cd ..`. -/
theorem C4_empty_line_dispatch_witness :
    onecmd stRoot "  " = (false, Out.emptyOut, stRoot) ∧
    onecmd stCdA "" = doDispatch stCdA stCdA.lastcmd :=
  ⟨(C4_empty_line_dispatch stRoot "  " (by decide)).1 rfl,
   (C4_empty_line_dispatch stCdA "" (by decide)).2 (by decide)⟩

/-! Section: `rm` branch helpers -/

theorem do_rm_notFound {st : TermState} {arg : String}
    (hne : pySplit arg ≠ [])
    (hnf : pexists st.fs (pyJoin st.current_dir ((pySplit arg).getLastD "")) = false) :
    do_rm st arg = (RmResult.notFound, st) := by
  have hie : (pySplit arg).isEmpty = false := by
    cases hsp : pySplit arg with
    | nil => exact absurd hsp hne
    | cons a l => rfl
  unfold pexists at hnf
  simp only [do_rm, hie, Bool.false_eq_true, if_false]
  split at hnf
  · next cp hwalk =>
    simp only [hwalk]
    cases hl : lookup st.fs cp with
    | none => simp only [hl]
    | some n => rw [hl] at hnf; simp at hnf
  · next e hwalk => simp only [hwalk]

theorem do_rm_resolved {st : TermState} {arg : String} {cp : List String}
    {n : FsNode} (hne : pySplit arg ≠ [])
    (hwalk : walkPath st.fs []
      (pyJoin st.current_dir ((pySplit arg).getLastD "")) = Except.ok cp)
    (hl : lookup st.fs cp = some n) :
    do_rm st arg =
      (match n with
       | FsNode.file _ _ _ =>
         (RmResult.fileRemoved, { st with fs := updateAt st.fs cp (fun _ => none) })
       | FsNode.dir _ =>
         if (pySplit arg).contains "-r" then
           if cp.isEmpty then (RmResult.rmError, st)
           else (RmResult.dirRemoved,
             { st with fs := updateAt st.fs cp (fun _ => none) })
         else (RmResult.isADirectory, st)) := by
  have hie : (pySplit arg).isEmpty = false := by
    cases hsp : pySplit arg with
    | nil => exact absurd hsp hne
    | cons a l => rfl
  simp only [do_rm, hie, Bool.false_eq_true, if_false]
  simp only [hwalk, hl]
  cases n <;> rfl

theorem do_rm_file {st : TermState} {arg : String} {cp : List String}
    {sz : Nat} {d : List (Option String)} {x : Bool} (hne : pySplit arg ≠ [])
    (hwalk : walkPath st.fs []
      (pyJoin st.current_dir ((pySplit arg).getLastD "")) = Except.ok cp)
    (hl : lookup st.fs cp = some (FsNode.file sz d x)) :
    do_rm st arg =
      (RmResult.fileRemoved, { st with fs := updateAt st.fs cp (fun _ => none) }) :=
  do_rm_resolved hne hwalk hl

theorem do_rm_dir_norec {st : TermState} {arg : String} {cp : List String}
    {cs : List (String × FsNode)} (hne : pySplit arg ≠ [])
    (hwalk : walkPath st.fs []
      (pyJoin st.current_dir ((pySplit arg).getLastD "")) = Except.ok cp)
    (hl : lookup st.fs cp = some (FsNode.dir cs))
    (hr : (pySplit arg).contains "-r" = false) :
    do_rm st arg = (RmResult.isADirectory, st) := by
  have h := do_rm_resolved hne hwalk hl
  rw [hr] at h
  simpa using h

theorem do_rm_dir_rec {st : TermState} {arg : String} {cp : List String}
    {cs : List (String × FsNode)} (hne : pySplit arg ≠ [])
    (hwalk : walkPath st.fs []
      (pyJoin st.current_dir ((pySplit arg).getLastD "")) = Except.ok cp)
    (hl : lookup st.fs cp = some (FsNode.dir cs))
    (hr : (pySplit arg).contains "-r" = true) (hie : cp.isEmpty = false) :
    do_rm st arg =
      (RmResult.dirRemoved, { st with fs := updateAt st.fs cp (fun _ => none) }) := by
  have h := do_rm_resolved hne hwalk hl
  rw [hr, hie] at h
  simpa using h

/-- C5: `rm` fails with `NotFound` when the target is missing; deletes a
file target regardless of the `-r` flag; on a directory target without
`-r` it fails with `IsADirectory` deleting nothing; and on a directory
target with `-r` it deletes the directory and its contents so that a
subsequent existence check on that path is false. -/
theorem C5_rm_semantics (st : TermState) (arg : String)
    (hwf : wfFs st.fs = true) (hne : pySplit arg ≠ []) :
    (pexists st.fs (pyJoin st.current_dir ((pySplit arg).getLastD "")) = false →
      do_rm st arg = (RmResult.notFound, st)) ∧
    (∀ cp sz d x,
      walkPath st.fs []
        (pyJoin st.current_dir ((pySplit arg).getLastD "")) = Except.ok cp →
      lookup st.fs cp = some (FsNode.file sz d x) →
      (do_rm st arg).1 = RmResult.fileRemoved ∧
      pexists (do_rm st arg).2.fs
        (pyJoin st.current_dir ((pySplit arg).getLastD "")) = false) ∧
    (∀ cp cs,
      walkPath st.fs []
        (pyJoin st.current_dir ((pySplit arg).getLastD "")) = Except.ok cp →
      lookup st.fs cp = some (FsNode.dir cs) →
      (pySplit arg).contains "-r" = false →
      do_rm st arg = (RmResult.isADirectory, st)) ∧
    (∀ cp cs,
      walkPath st.fs []
        (pyJoin st.current_dir ((pySplit arg).getLastD "")) = Except.ok cp →
      lookup st.fs cp = some (FsNode.dir cs) →
      (pySplit arg).contains "-r" = true → cp ≠ [] →
      (do_rm st arg).1 = RmResult.dirRemoved ∧
      pexists (do_rm st arg).2.fs
        (pyJoin st.current_dir ((pySplit arg).getLastD "")) = false) := by
  have hwn : wfNode st.fs = true := by
    simp only [wfFs, Bool.and_eq_true] at hwf
    exact hwf.2
  refine ⟨do_rm_notFound hne, ?_, ?_, ?_⟩
  · intro cp sz d x hwalk hl
    have hcp : cp ≠ [] := by
      intro hcp
      subst hcp
      simp only [lookup, Option.some.injEq] at hl
      rw [hl] at hwf
      simp [wfFs] at hwf
    rw [do_rm_file hne hwalk hl]
    exact ⟨rfl, pexists_after_del hwn hwalk (by rw [hl]; rfl) hcp⟩
  · intro cp cs hwalk hl hr
    exact do_rm_dir_norec hne hwalk hl hr
  · intro cp cs hwalk hl hr hcp
    have hie : cp.isEmpty = false := by
      cases cp with
      | nil => exact absurd rfl hcp
      | cons a l => rfl
    rw [do_rm_dir_rec hne hwalk hl hr hie]
    exact ⟨rfl, pexists_after_del hwn hwalk (by rw [hl]; rfl) hcp⟩

/-- C5 witness: `rm -r d` removes the non-empty directory `d`, after which
it no longer exists; `rm f` removes the file `f`; `rm d` without the flag
fails with `IsADirectory`; `rm missing` fails with `NotFound`. -/
theorem C5_rm_semantics_witness :
    ((do_rm stRmDemo "-r d").1 = RmResult.dirRemoved ∧
      pexists (do_rm stRmDemo "-r d").2.fs
        (pyJoin stRmDemo.current_dir ((pySplit "-r d").getLastD "")) = false) ∧
    ((do_rm stRmDemo "f").1 = RmResult.fileRemoved ∧
      pexists (do_rm stRmDemo "f").2.fs
        (pyJoin stRmDemo.current_dir ((pySplit "f").getLastD "")) = false) ∧
    do_rm stRmDemo "d" = (RmResult.isADirectory, stRmDemo) ∧
    do_rm stRmDemo "missing" = (RmResult.notFound, stRmDemo) :=
  ⟨(C5_rm_semantics stRmDemo "-r d" (by decide) (by decide)).2.2.2
      (baseSegs ++ ["d"]) [("g", FsNode.file 1 [] false)] rfl rfl (by decide)
      (by decide),
   (C5_rm_semantics stRmDemo "f" (by decide) (by decide)).2.1
      (baseSegs ++ ["f"]) 3 [some "x"] false rfl rfl,
   (C5_rm_semantics stRmDemo "d" (by decide) (by decide)).2.2.1
      (baseSegs ++ ["d"]) [("g", FsNode.file 1 [] false)] rfl rfl (by decide),
   (C5_rm_semantics stRmDemo "missing" (by decide) (by decide)).1 (by decide)⟩

/-- C10 counterexample: the claim states that `rm name -r` still performs a
recursive removal of `name`.  It does not: the last token is the target, so
`rm d -r` attempts to remove an entry literally named `-r`, fails with
`NotFound`, and leaves `d` (and the whole state) untouched. -/
theorem C10_rm_trailing_flag_counterexample :
    (do_rm stRmDemo "d -r").1 = RmResult.notFound ∧
    (do_rm stRmDemo "d -r").2 = stRmDemo ∧
    lookup stRmDemo.fs (baseSegs ++ ["d"]) =
      some (FsNode.dir [("g", FsNode.file 1 [] false)]) :=
  ⟨by decide, by rfl, by rfl⟩

/-- C10 amended: `rm` splits its argument on whitespace, takes the last
token as the target name and treats a `-r` token at any position as the
recursive flag; `rm -r` with no further token targets an entry literally
named `-r`, and a flag placed after the name (`rm name -r`) makes `-r`
itself the target — it attempts (recursive) removal of an entry named
`-r` and leaves `name` untouched. -/
theorem C10_rm_argument_parsing (st : TermState) :
    (∀ arg, pySplit arg ≠ [] →
      pexists st.fs (pyJoin st.current_dir ((pySplit arg).getLastD "")) = false →
      do_rm st arg = (RmResult.notFound, st)) ∧
    (pexists st.fs (pyJoin st.current_dir "-r") = false →
      do_rm st "-r" = (RmResult.notFound, st)) ∧
    (∀ name cp cs,
      pySplit ("-r " ++ name) = ["-r", name] →
      walkPath st.fs [] (pyJoin st.current_dir name) = Except.ok cp →
      lookup st.fs cp = some (FsNode.dir cs) → cp ≠ [] →
      (do_rm st ("-r " ++ name)).1 = RmResult.dirRemoved) ∧
    (∀ name, pySplit (name ++ " -r") = [name, "-r"] →
      pexists st.fs (pyJoin st.current_dir "-r") = false →
      do_rm st (name ++ " -r") = (RmResult.notFound, st)) := by
  refine ⟨?_, ?_, ?_, ?_⟩
  · intro arg hne hnf
    exact do_rm_notFound hne hnf
  · intro hnf
    exact do_rm_notFound (by decide) (by simpa using hnf)
  · intro name cp cs hsp hwalk hl hcp
    have hne : pySplit ("-r " ++ name) ≠ [] := by rw [hsp]; simp
    have hw2 : walkPath st.fs []
        (pyJoin st.current_dir ((pySplit ("-r " ++ name)).getLastD "")) =
        Except.ok cp := by rw [hsp]; exact hwalk
    have hr : (pySplit ("-r " ++ name)).contains "-r" = true := by
      rw [hsp]; simp
    have hie : cp.isEmpty = false := by
      cases cp with
      | nil => exact absurd rfl hcp
      | cons a l => rfl
    rw [do_rm_dir_rec hne hw2 hl hr hie]
  · intro name hsp hnf
    have hne : pySplit (name ++ " -r") ≠ [] := by rw [hsp]; simp
    refine do_rm_notFound hne ?_
    rw [hsp]
    exact hnf

/-- C10 witness: `rm -r d` removes `d` recursively (flag before the name),
and `rm d -r` targets the missing entry `-r` leaving the state unchanged. -/
theorem C10_rm_argument_parsing_witness :
    (do_rm stRmDemo "-r d").1 = RmResult.dirRemoved ∧
    do_rm stRmDemo "d -r" = (RmResult.notFound, stRmDemo) :=
  ⟨(C10_rm_argument_parsing stRmDemo).2.2.1 "d" (baseSegs ++ ["d"])
      [("g", FsNode.file 1 [] false)] (by decide) rfl rfl (by decide),
   (C10_rm_argument_parsing stRmDemo).2.2.2 "d" (by decide) (by decide)⟩

/-- C7 counterexample: the claim says `cat` fails with `NotText` whenever
the file content cannot be decoded as valid text.  For a 20 MiB file whose
first 50 lines decode but whose remainder does not, `cat` prints the first
50 lines as truncated output instead of failing with `NotText` (the code
only decodes what it reads). -/
theorem C7_cat_undecodable_tail_counterexample :
    lookup stCatDemo.fs (baseSegs ++ ["late"]) =
      some (FsNode.file 20971520 (List.replicate 50 (some "x") ++ [none]) false) ∧
    (List.replicate 50 (some "x") ++ [none] : List (Option String)).all
      Option.isSome = false ∧
    20971520 > catMaxSize ∧
    (do_cat stCatDemo "late").1 =
      CatResult.truncated 20971520 (List.replicate 50 "x") ∧
    (do_cat stCatDemo "late").1 ≠ CatResult.notText :=
  ⟨by rfl, by decide, by decide, by decide, by decide⟩

/-- C7 amended: for an existing regular file, if its size exceeds 10 MiB
and the first 50 lines decode, `cat` returns exactly those first 50 lines
tagged as truncated with the size warning; if its size is at most 10 MiB
and the whole content decodes, it returns the full text; and it fails with
`NotText`, showing no content, exactly when the portion it reads (the
whole file when at most 10 MiB, the first 50 lines otherwise) cannot be
decoded. -/
theorem C7_cat_semantics (st : TermState) (arg : String) (cp : List String)
    (sz : Nat) (data : List (Option String)) (x : Bool)
    (harg : arg ≠ "")
    (hwalk : walkPath st.fs [] (pyJoin st.current_dir arg) = Except.ok cp)
    (hl : lookup st.fs cp = some (FsNode.file sz data x)) :
    (sz > catMaxSize → (data.take 50).all Option.isSome = true →
      do_cat st arg = (CatResult.truncated sz ((data.take 50).filterMap id), st)) ∧
    (sz ≤ catMaxSize → data.all Option.isSome = true →
      do_cat st arg = (CatResult.fullText (data.filterMap id), st)) ∧
    (sz > catMaxSize → (data.take 50).all Option.isSome = false →
      do_cat st arg = (CatResult.notText, st)) ∧
    (sz ≤ catMaxSize → data.all Option.isSome = false →
      do_cat st arg = (CatResult.notText, st)) := by
  have hbase : do_cat st arg =
      (if sz > catMaxSize then
        (if (data.take 50).all Option.isSome then
          (CatResult.truncated sz ((data.take 50).filterMap id), st)
         else (CatResult.notText, st))
       else
        (if data.all Option.isSome then
          (CatResult.fullText (data.filterMap id), st)
         else (CatResult.notText, st))) := by
    simp only [do_cat, if_neg harg, hwalk, hl]
  refine ⟨?_, ?_, ?_, ?_⟩
  · intro hsz hall
    rw [hbase, if_pos hsz, hall]
    simp
  · intro hsz hall
    rw [hbase, if_neg (not_lt.mpr hsz), hall]
    simp
  · intro hsz hall
    rw [hbase, if_pos hsz, hall]
    simp
  · intro hsz hall
    rw [hbase, if_neg (not_lt.mpr hsz), hall]
    simp

/-- C7 witness: a 20 MiB decodable file is truncated to its first 50
lines, a small decodable file is shown in full, and a small undecodable
file yields `NotText`. -/
theorem C7_cat_semantics_witness :
    do_cat stCatDemo "big" =
      (CatResult.truncated 20971520
        (((List.replicate 60 (some "x")).take 50).filterMap id), stCatDemo) ∧
    do_cat stCatDemo "small" =
      (CatResult.fullText
        (([some "a", some "b"] : List (Option String)).filterMap id), stCatDemo) ∧
    do_cat stCatDemo "bin" = (CatResult.notText, stCatDemo) :=
  ⟨(C7_cat_semantics stCatDemo "big" (baseSegs ++ ["big"]) 20971520
      (List.replicate 60 (some "x")) false (by decide) rfl rfl).1
      (by decide) (by decide),
   (C7_cat_semantics stCatDemo "small" (baseSegs ++ ["small"]) 10
      [some "a", some "b"] false (by decide) rfl rfl).2.1
      (by decide) (by decide),
   (C7_cat_semantics stCatDemo "bin" (baseSegs ++ ["bin"]) 10
      [some "a", none] false (by decide) rfl rfl).2.2.2
      (by decide) (by decide)⟩

/-- C8: for an existing target directory, `ls` renders exactly one row per
entry, the rows are sorted by name ascending (code-point order, the
implementation's deterministic rule — on `[b.txt, A, a.txt]` this yields
`[A, a.txt, b.txt]`), directories report no size, and a file's kind is
`EXE` exactly when its execute bit is set, else `FILE`. -/
theorem C8_ls_semantics :
    (∀ (st : TermState) (arg : String) (cp : List String)
        (cs : List (String × FsNode)),
      walkPath st.fs []
        (if arg = "" then st.current_dir else pyJoin st.current_dir arg) =
        Except.ok cp →
      lookup st.fs cp = some (FsNode.dir cs) →
      do_ls st arg = LsResult.table (lsRows cs) ∧
      List.Sorted (fun a b : String => a ≤ b) ((lsRows cs).map LsRow.name) ∧
      ((lsRows cs).map LsRow.name).Perm (cs.map Prod.fst) ∧
      (∀ r ∈ lsRows cs, ∃ pr ∈ cs, r = renderEntry pr)) ∧
    (∀ (name : String) (node : FsNode),
      (∀ dcs, node = FsNode.dir dcs →
        (renderEntry (name, node)).kind = "DIR" ∧
        (renderEntry (name, node)).size = none) ∧
      (∀ sz d x, node = FsNode.file sz d x →
        (renderEntry (name, node)).size = some sz ∧
        ((renderEntry (name, node)).kind = "EXE" ↔ x = true) ∧
        ((renderEntry (name, node)).kind = "FILE" ↔ x = false))) ∧
    do_ls stLsDemo "" = LsResult.table
      [{ kind := "DIR", name := "A", size := none },
       { kind := "EXE", name := "a.txt", size := some 2 },
       { kind := "FILE", name := "b.txt", size := some 1 }] := by
  refine ⟨?_, ?_, by decide⟩
  · intro st arg cp cs hwalk hl
    have hdo : do_ls st arg = LsResult.table (lsRows cs) := by
      simp only [do_ls, hwalk, hl]
    have hname : ∀ pr : String × FsNode, (renderEntry pr).name = pr.1 := by
      intro pr
      obtain ⟨nm, node⟩ := pr
      cases node <;> rfl
    have hnames : (lsRows cs).map LsRow.name =
        (List.insertionSort nameLe cs).map Prod.fst := by
      simp only [lsRows, List.map_map]
      exact List.map_congr_left (fun pr _ => hname pr)
    refine ⟨hdo, ?_, ?_, ?_⟩
    · rw [hnames]
      have hsorted := List.sorted_insertionSort nameLe cs
      refine List.Pairwise.map Prod.fst ?_ hsorted
      intro a b hab
      exact String.le_iff_toList_le.mpr hab
    · rw [hnames]
      exact (List.perm_insertionSort nameLe cs).map Prod.fst
    · intro r hr
      simp only [lsRows, List.mem_map] at hr
      obtain ⟨pr, hpr, heq⟩ := hr
      exact ⟨pr, (List.perm_insertionSort nameLe cs).subset hpr, heq.symm⟩
  · intro name node
    constructor
    · intro dcs h
      subst h
      exact ⟨rfl, rfl⟩
    · intro sz d x h
      subst h
      refine ⟨rfl, ?_, ?_⟩
      · cases x <;> simp [renderEntry]
      · cases x <;> simp [renderEntry]

/-- C8 witness: `ls` on the directory holding `[b.txt, A, a.txt]` lists
the entries as the sorted rendered table. -/
theorem C8_ls_semantics_witness :
    do_ls stLsDemo "" = LsResult.table
      (lsRows [("b.txt", FsNode.file 1 [] false), ("A", FsNode.dir []),
        ("a.txt", FsNode.file 2 [] true)]) :=
  (C8_ls_semantics.1 stLsDemo "" baseSegs
    [("b.txt", FsNode.file 1 [] false), ("A", FsNode.dir []),
      ("a.txt", FsNode.file 2 [] true)] rfl rfl).1

/-- C9: for a plain name `X` that does not yet exist under the current
directory, `mkdir X` creates the directory and a following `rmdir X`
restores the session state exactly (the directory is absent again and the
file system equals the original); and `mkdir` on an existing target fails
with `AlreadyExists`, overwriting nothing. -/
theorem C9_mkdir_rmdir_roundtrip (st : TermState) (X : String)
    (ccur : List String)
    (hfrag : parseFrag X = [X]) (hdd : X ≠ "..") (habs : headIs X '/' = false)
    (hwalk : walkPath st.fs [] st.current_dir = Except.ok ccur)
    (hcur : isDirAt st.fs ccur = true)
    (hmiss : lookup st.fs (ccur ++ [X]) = none) :
    (do_mkdir st X).1 = MkdirResult.created ∧
    lookup (do_mkdir st X).2.fs (ccur ++ [X]) = some (FsNode.dir []) ∧
    do_rmdir (do_mkdir st X).2 X = (RmdirResult.removed, st) ∧
    (∀ Y, Y ≠ "" → pexists st.fs (pyJoin st.current_dir Y) = true →
      do_mkdir st Y = (MkdirResult.alreadyExists, st)) := by
  have hXne : X ≠ "" := by
    intro hh
    rw [hh] at hfrag
    exact absurd hfrag (by decide)
  have hpj : pyJoin st.current_dir X = st.current_dir ++ [X] := by
    simp [pyJoin, habs, hfrag]
  have hwX : walkPath st.fs [] (st.current_dir ++ [X]) =
      Except.ok (ccur ++ [X]) := walk_append_seg hdd _ _ _ hwalk hcur
  have hccXne : ccur ++ [X] ≠ [] := by simp
  have hmk : do_mkdir st X = (MkdirResult.created,
      { st with fs := updateAt st.fs (ccur ++ [X]) (fun _ => some (FsNode.dir [])) }) := by
    simp only [do_mkdir, if_neg hXne, hpj, hwX, hmiss, Option.isSome_none,
      Bool.false_eq_true, if_false]
  have hdl : (ccur ++ [X]).dropLast = ccur := List.dropLast_concat
  have hl1 : lookup (updateAt st.fs (ccur ++ [X]) (fun _ => some (FsNode.dir [])))
      (ccur ++ [X]) = some (FsNode.dir []) :=
    lookup_updateAt_ins (FsNode.dir []) (ccur ++ [X]) st.fs hccXne
      (by rw [hdl]; exact hcur)
  have hpres := isDirAt_updateAt_ins (FsNode.dir []) (ccur ++ [X]) st.fs hmiss
  have hw1 : walkPath (updateAt st.fs (ccur ++ [X]) (fun _ => some (FsNode.dir [])))
      [] st.current_dir = Except.ok ccur := walk_mono hpres _ _ _ hwalk
  have hcur1 := hpres ccur hcur
  have hwX1 : walkPath (updateAt st.fs (ccur ++ [X]) (fun _ => some (FsNode.dir [])))
      [] (st.current_dir ++ [X]) = Except.ok (ccur ++ [X]) :=
    walk_append_seg hdd _ _ _ hw1 hcur1
  have hccie : (ccur ++ [X]).isEmpty = false := by
    cases h : ccur ++ [X] with
    | nil => exact absurd h hccXne
    | cons a l => rfl
  have hrestore : updateAt (updateAt st.fs (ccur ++ [X])
      (fun _ => some (FsNode.dir []))) (ccur ++ [X]) (fun _ => none) = st.fs :=
    updateAt_ins_del (FsNode.dir []) (ccur ++ [X]) st.fs hmiss
  refine ⟨by rw [hmk], by rw [hmk]; exact hl1, ?_, ?_⟩
  · rw [hmk]
    simp only [do_rmdir, if_neg hXne, hpj, hwX1, hl1, List.isEmpty_nil, hccie,
      Bool.false_eq_true, if_false, if_true]
    rw [hrestore]
  · intro Y hYne hex
    unfold pexists at hex
    simp only [do_mkdir, if_neg hYne]
    split at hex
    · next cp2 hw2 =>
      simp only [hw2, hex, if_true]
    · cases hex

/-- C9 witness: `mkdir X` then `rmdir X` in the sandbox holding only the
file `z` restores the original state, and `mkdir z` fails with
`AlreadyExists`. -/
theorem C9_mkdir_rmdir_roundtrip_witness :
    (do_mkdir stMkDemo "X").1 = MkdirResult.created ∧
    do_rmdir (do_mkdir stMkDemo "X").2 "X" = (RmdirResult.removed, stMkDemo) ∧
    do_mkdir stMkDemo "z" = (MkdirResult.alreadyExists, stMkDemo) := by
  have h := C9_mkdir_rmdir_roundtrip stMkDemo "X" baseSegs (by decide)
    (by decide) (by decide) rfl rfl rfl
  exact ⟨h.1, h.2.2.1, h.2.2.2 "z" (by decide) (by decide)⟩

/-- C6 counterexample: the claim says a directory source is copied into a
new child of the destination named after the source's base name.  The code
joins the destination with the whole source fragment instead: with `a/b` a
directory and `d` an existing directory, `cp a/b d` succeeds but creates
`d/a/b` (no child named `b`, the base name, exists under `d`). -/
theorem C6_cp_basename_counterexample :
    (do_cp stCpDemo "a/b d").1 = CpResult.dirCopied ∧
    lookup (do_cp stCpDemo "a/b d").2.fs (baseSegs ++ ["d", "b"]) = none ∧
    lookup (do_cp stCpDemo "a/b d").2.fs (baseSegs ++ ["d", "a", "b", "f"]) =
      some (FsNode.file 1 [] false) :=
  ⟨by decide, by rfl, by rfl⟩

/-- C6 amended: for a single-segment directory source fragment, if the
destination exists and is a directory the source is copied recursively
into a new child of the destination named after the source fragment
(`cp dirA dirB` yields `dirB/dirA` with all of `dirA`'s contents), leaving
every other entry of the destination untouched; if the destination does
not exist the source is copied recursively to the destination path; and
the copy loop merges additively, preserving destination entries whose
names do not occur in the source (for multi-segment fragments the copy
lands at the destination joined with the whole fragment, not the base
name — see the counterexample). -/
theorem C6_cp_directory_semantics (st : TermState) (arg source dest : String)
    (ccur : List String) (scs : List (String × FsNode))
    (hwf : wfFs st.fs = true)
    (hsplit : pySplit arg = [source, dest])
    (hs1 : parseFrag source = [source]) (hs2 : source ≠ "..")
    (hs3 : headIs source '/' = false)
    (hd1 : parseFrag dest = [dest]) (hd2 : dest ≠ "..")
    (hd3 : headIs dest '/' = false)
    (hwalk : walkPath st.fs [] st.current_dir = Except.ok ccur)
    (hcur : isDirAt st.fs ccur = true)
    (hsn : lookup st.fs (ccur ++ [source]) = some (FsNode.dir scs)) :
    (∀ dcs, lookup st.fs (ccur ++ [dest]) = some (FsNode.dir dcs) →
      lookup st.fs (ccur ++ [dest] ++ [source]) = none →
      (do_cp st arg).1 = CpResult.dirCopied ∧
      lookup (do_cp st arg).2.fs (ccur ++ [dest] ++ [source]) =
        some (FsNode.dir scs) ∧
      (∀ nm t, nm ≠ source →
        lookup (do_cp st arg).2.fs (ccur ++ [dest] ++ nm :: t) =
          lookup st.fs (ccur ++ [dest] ++ nm :: t))) ∧
    (lookup st.fs (ccur ++ [dest]) = none →
      (do_cp st arg).1 = CpResult.dirCopied ∧
      lookup (do_cp st arg).2.fs (ccur ++ [dest]) = some (FsNode.dir scs)) ∧
    (∀ (scs2 dcs2 : List (String × FsNode)) (nm : String),
      findChild scs2 nm = none →
      findChild (copyChildren scs2 dcs2).1 nm = findChild dcs2 nm) := by
  have hwn : wfNode st.fs = true := by
    simp only [wfFs, Bool.and_eq_true] at hwf
    exact hwf.2
  have hwsrc : wfNode (FsNode.dir scs) = true :=
    wfNode_lookup (ccur ++ [source]) st.fs hwn hsn
  have hpjs : pyJoin st.current_dir source = st.current_dir ++ [source] := by
    simp [pyJoin, hs3, hs1]
  have hpjd : pyJoin st.current_dir dest = st.current_dir ++ [dest] := by
    simp [pyJoin, hd3, hd1]
  have hpjds : pyJoin (st.current_dir ++ [dest]) source =
      (st.current_dir ++ [dest]) ++ [source] := by
    simp [pyJoin, hs3, hs1]
  have hwsp : walkPath st.fs [] (st.current_dir ++ [source]) =
      Except.ok (ccur ++ [source]) := walk_append_seg hs2 _ _ _ hwalk hcur
  have hwdp : walkPath st.fs [] (st.current_dir ++ [dest]) =
      Except.ok (ccur ++ [dest]) := walk_append_seg hd2 _ _ _ hwalk hcur
  have hmerge : copyChildren scs [] = ([] ++ scs, false) :=
    copyChildren_disjoint hwsrc (fun pr _ => rfl)
  refine ⟨?_, ?_, fun scs2 dcs2 nm h => copyChildren_keep scs2 dcs2 h⟩
  · intro dcs hdn hfresh
    have hdird : isDirAt st.fs (ccur ++ [dest]) = true := isDirAt_iff.mpr ⟨dcs, hdn⟩
    have hpex : pexists st.fs (st.current_dir ++ [dest]) = true := by
      unfold pexists
      simp only [hwdp, hdn]
      rfl
    have hpdir : pIsDir st.fs (st.current_dir ++ [dest]) = true := by
      unfold pIsDir
      simp only [hwdp]
      exact hdird
    have hmk1 : makedirsGo st.fs [] (st.current_dir ++ [dest]) =
        (st.fs, some (ccur ++ [dest])) := makedirsGo_of_walk _ _ _ hwdp hdird
    have hmkfull : makedirsGo st.fs [] ((st.current_dir ++ [dest]) ++ [source]) =
        (updateAt st.fs (ccur ++ [dest] ++ [source]) (fun _ => some (FsNode.dir [])),
          some (ccur ++ [dest] ++ [source])) := by
      rw [makedirsGo_append, hmk1]
      simp only [makedirsGo, if_neg hs2, hfresh]
    have hdl2 : (ccur ++ [dest] ++ [source]).dropLast = ccur ++ [dest] :=
      List.dropLast_concat
    have hl1 : lookup (updateAt st.fs (ccur ++ [dest] ++ [source])
        (fun _ => some (FsNode.dir []))) (ccur ++ [dest] ++ [source]) =
        some (FsNode.dir []) :=
      lookup_updateAt_ins _ _ _ (by simp) (by rw [hdl2]; exact hdird)
    have hdird1 : isDirAt (updateAt st.fs (ccur ++ [dest] ++ [source])
        (fun _ => some (FsNode.dir []))) (ccur ++ [dest]) = true :=
      isDirAt_updateAt_ins _ _ _ hfresh _ hdird
    have hdo : do_cp st arg = (CpResult.dirCopied,
        { st with fs := (updateAt (updateAt st.fs (ccur ++ [dest] ++ [source])
            (fun _ => some (FsNode.dir []))) (ccur ++ [dest] ++ [source])
            (fun _ => some (FsNode.dir scs))) }) := by
      simp only [do_cp, hsplit, hpjs, hpjd, hpjds, hwsp, hsn, hpex, hpdir,
        Bool.and_self, if_true, cpTree, hmkfull, hl1, hmerge, List.nil_append]
      simp
    refine ⟨by rw [hdo], ?_, ?_⟩
    · rw [hdo]
      exact lookup_updateAt_ins _ _ _ (by simp) (by rw [hdl2]; exact hdird1)
    · intro nm t hnm
      have hsnm : source ≠ nm := fun hh => hnm hh.symm
      rw [hdo]
      have d1 := lookup_updateAt_diverge hsnm
        (fun _ => some (FsNode.dir scs)) (ccur ++ [dest]) [] t
        (updateAt st.fs (ccur ++ [dest] ++ [source]) (fun _ => some (FsNode.dir [])))
      have d2 := lookup_updateAt_diverge hsnm
        (fun _ => some (FsNode.dir [])) (ccur ++ [dest]) [] t st.fs
      exact d1.trans d2
  · intro hdn
    have hpex : pexists st.fs (st.current_dir ++ [dest]) = false := by
      unfold pexists
      simp only [hwdp, hdn]
      rfl
    have hmk0 : makedirsGo st.fs [] st.current_dir = (st.fs, some ccur) :=
      makedirsGo_of_walk _ _ _ hwalk hcur
    have hmk1 : makedirsGo st.fs [] (st.current_dir ++ [dest]) =
        (updateAt st.fs (ccur ++ [dest]) (fun _ => some (FsNode.dir [])),
          some (ccur ++ [dest])) := by
      rw [makedirsGo_append, hmk0]
      simp only [makedirsGo, if_neg hd2, hdn]
    have hdl1 : (ccur ++ [dest]).dropLast = ccur := List.dropLast_concat
    have hl1 : lookup (updateAt st.fs (ccur ++ [dest])
        (fun _ => some (FsNode.dir []))) (ccur ++ [dest]) = some (FsNode.dir []) :=
      lookup_updateAt_ins _ _ _ (by simp) (by rw [hdl1]; exact hcur)
    have hcur1 : isDirAt (updateAt st.fs (ccur ++ [dest])
        (fun _ => some (FsNode.dir []))) ccur = true :=
      isDirAt_updateAt_ins _ _ _ hdn _ hcur
    have hdo : do_cp st arg = (CpResult.dirCopied,
        { st with fs := (updateAt (updateAt st.fs (ccur ++ [dest])
            (fun _ => some (FsNode.dir []))) (ccur ++ [dest])
            (fun _ => some (FsNode.dir scs))) }) := by
      simp only [do_cp, hsplit, hpjs, hpjd, hwsp, hsn, hpex, Bool.false_and,
        Bool.false_eq_true, if_false, cpTree, hmk1, hl1, hmerge, List.nil_append]
      simp
    refine ⟨by rw [hdo], ?_⟩
    rw [hdo]
    exact lookup_updateAt_ins _ _ _ (by simp) (by rw [hdl1]; exact hcur1)

/-- C6 witness: `cp dirA dirB` with both directories existing creates
`dirB/dirA` holding `dirA`'s contents, keeps `dirB/keep`, and
`cp dirA newdir` copies `dirA` to the fresh path `newdir`. -/
theorem C6_cp_directory_semantics_witness :
    ((do_cp stCpDemo "dirA dirB").1 = CpResult.dirCopied ∧
      lookup (do_cp stCpDemo "dirA dirB").2.fs
        (baseSegs ++ ["dirB"] ++ ["dirA"]) =
        some (FsNode.dir [("f", FsNode.file 1 [some "z"] false)]) ∧
      lookup (do_cp stCpDemo "dirA dirB").2.fs
        (baseSegs ++ ["dirB"] ++ "keep" :: []) =
        lookup stCpDemo.fs (baseSegs ++ ["dirB"] ++ "keep" :: [])) ∧
    ((do_cp stCpDemo "dirA newdir").1 = CpResult.dirCopied ∧
      lookup (do_cp stCpDemo "dirA newdir").2.fs (baseSegs ++ ["newdir"]) =
        some (FsNode.dir [("f", FsNode.file 1 [some "z"] false)])) := by
  have h := C6_cp_directory_semantics stCpDemo "dirA dirB" "dirA" "dirB"
    baseSegs [("f", FsNode.file 1 [some "z"] false)] (by decide) (by decide)
    (by decide) (by decide) (by decide) (by decide) (by decide) (by decide)
    rfl rfl rfl
  have h2 := C6_cp_directory_semantics stCpDemo "dirA newdir" "dirA" "newdir"
    baseSegs [("f", FsNode.file 1 [some "z"] false)] (by decide) (by decide)
    (by decide) (by decide) (by decide) (by decide) (by decide) (by decide)
    rfl rfl rfl
  have ha := h.1 [("keep", FsNode.file 2 [] false)] rfl rfl
  exact ⟨⟨ha.1, ha.2.1, ha.2.2 "keep" [] (by decide)⟩, h2.2.1 rfl⟩
